import Mathlib

/-!
# gdb.go fixtures: `chan.go` and `types.go`

A shallow embedding of the two Go programs under `gdb/testsuite/gdb.go`.

* `chan.go`: `generate` makes an unbuffered channel and starts a goroutine that sends
  `0, 1, 2, ...` on it; `main` receives one hundred values and prints each of them.
  The two goroutines are modelled statement by statement; a state of the program holds
  the channel, the program counter and locals of each goroutine, and the bytes written
  to stdout. Scheduling is the choice of a successor in `State.next`.
* `types.go`: the type declarations are a table from type names to type expressions,
  `main` is the straight-line sequence of its `fmt.Println` calls.

Go's `int` is a two's complement integer of 32 or 64 bits, depending on the platform;
the width is the parameter `bits` throughout.
-/

/-! ## `fmt.Println` on the values the two programs print -/

namespace Fmt

/-- The values handed to `fmt.Println` by the two programs: integers, strings, pointers
(nil or the address of a variable) and structs (the list of field values). -/
inductive Value where
  | int (n : Int)
  | str (s : String)
  | nil
  | addr (a : Nat)
  | struct (fields : List Value)

/-- Lower-case hexadecimal digits of `n`, most significant first, on `fuel` digits at most:
the `%x` form that `fmt` uses for a pointer that is not nil. -/
def hexDigits : Nat → Nat → List Char
  | 0, _ => []
  | fuel + 1, n =>
    if n < 16 then [Nat.digitChar n] else hexDigits fuel (n / 16) ++ [Nat.digitChar (n % 16)]

mutual
/-- The `%v` form of a value, as `fmt.Println` writes it: an integer in decimal, a string as
it is, a nil pointer as `<nil>`, a pointer as `0x` and its address in hexadecimal, a struct
as its fields between braces, separated by blanks. -/
def render : Value → String
  | .int n => toString n
  | .str s => s
  | .nil => "<nil>"
  | .addr a => "0x" ++ String.mk (hexDigits 16 a)
  | .struct fs => "\x7b" ++ renderFields fs ++ "\x7d"
/-- The fields of a struct, separated by single blanks. -/
def renderFields : List Value → String
  | [] => ""
  | [v] => render v
  | v :: w :: rest => render v ++ " " ++ renderFields (w :: rest)
end

/-- The call `fmt.Println(v)` with one operand: stdout grows by the `%v` form of the
operand and a newline. -/
def Println (out : String) (v : Value) : String :=
  out ++ render v ++ "\n"

end Fmt

/-! ## chan.go -/

namespace ChanGo

/-- The value of an `int` expression whose mathematical value is `x`: Go integer arithmetic
wraps around in two's complement on overflow. -/
def wrapInt (bits : Nat) (x : Int) : Int :=
  (x + 2 ^ (bits - 1)) % 2 ^ bits - 2 ^ (bits - 1)

/-- A Go channel of `int`: its capacity, the buffered values (oldest first) and whether it
has been closed. -/
structure Chan where
  cap : Nat
  buf : List Int
  closed : Bool
  deriving DecidableEq, Repr

/-- The channel of `ch := make(chan int)`: no capacity argument, so unbuffered. -/
def makeChan : Chan := ⟨0, [], false⟩

/-- Program counter of the goroutine started in `generate`:
`init` is before `i := 0`, `send` is at `ch <- i`, `incr` is at `i++`; `done` is a goroutine
whose function has returned and `panicked` one that has panicked. -/
inductive ProdPc where
  | init | send | incr | done | panicked
  deriving DecidableEq, Repr

/-- The goroutine started in `generate`: program counter and its local `i`. -/
structure Prod where
  pc : ProdPc
  i : Int
  deriving DecidableEq, Repr

/-- The goroutine of `go func() { for i := 0; ; i++ { ch <- i } }()` when it is created. -/
def goroutine : Prod := ⟨.init, 0⟩

/-- A step the goroutine takes without a partner, on channel `c`. The result is the channel,
the goroutine and the value whose send has completed in this step, if any.
`i := 0` leads to the send; the send panics on a closed channel, puts the value in the buffer
when there is room, and blocks otherwise; `i++` is followed by the next iteration, the loop
having no condition. -/
def prodStep (bits : Nat) (c : Chan) (p : Prod) : Option (Chan × Prod × Option Int) :=
  match p.pc with
  | .init => some (c, ⟨.send, 0⟩, none)
  | .send =>
    if c.closed then some (c, ⟨.panicked, p.i⟩, none)
    else if c.buf.length < c.cap then some (⟨c.cap, c.buf ++ [p.i], c.closed⟩, ⟨.incr, p.i⟩, some p.i)
    else none
  | .incr => some (c, ⟨.send, wrapInt bits (p.i + 1)⟩, none)
  | .done => none
  | .panicked => none

/-- A receive `<-ch` that needs no sender: the oldest buffered value, or the zero value when
the channel is closed and drained. The result is the value received and the channel. -/
def recvBuffered (c : Chan) : Option (Int × Chan) :=
  match c.buf with
  | v :: rest => some (v, ⟨c.cap, rest, c.closed⟩)
  | [] => if c.closed then some (0, c) else none

/-- The hand-off on an open channel with nothing buffered: the goroutine is at `ch <- i` and
a receiver is at `<-ch`; the receiver gets `i` and the goroutine goes on to `i++`. The result
is the value and the goroutine. -/
def rendezvous (c : Chan) (p : Prod) : Option (Int × Prod) :=
  if c.buf = [] ∧ c.closed = false ∧ p.pc = .send then some (p.i, ⟨.incr, p.i⟩) else none

/-! ### `generate` with any receiver -/

/-- What `generate` leaves behind, seen by whoever holds the returned channel: the channel,
the goroutine, and the history of the values sent and received so far. -/
structure Gen where
  ch : Chan
  prod : Prod
  sent : List Int
  recvd : List Int
  deriving DecidableEq, Repr

/-- The call `generate()`: a fresh channel and the goroutine just started. -/
def generate : Gen := ⟨makeChan, goroutine, [], []⟩

/-- The successors of a state of `generate`: a step of the goroutine alone, a receive of a
buffered value by the holder of the channel, or a hand-off to the holder of the channel,
who may receive at any time. -/
def Gen.next (bits : Nat) (g : Gen) : List Gen :=
  (match prodStep bits g.ch g.prod with
    | some (c, p, sv) => [⟨c, p, g.sent ++ sv.toList, g.recvd⟩]
    | none => []) ++
  (match recvBuffered g.ch with
    | some (v, c) => [⟨c, g.prod, g.sent, g.recvd ++ [v]⟩]
    | none => []) ++
  (match rendezvous g.ch g.prod with
    | some (v, p) => [⟨g.ch, p, g.sent ++ [v], g.recvd ++ [v]⟩]
    | none => [])

/-- The states `generate` and a receiver can be in. -/
inductive Gen.Reachable (bits : Nat) : Gen → Prop where
  | start : Gen.Reachable bits generate
  | step {g h : Gen} : Gen.Reachable bits g → h ∈ g.next bits → Gen.Reachable bits h

/-! ### `main` -/

/-- Program counter of `main`. `genMake`, `genGo` and `genReturn` are the three statements
of the call `integers := generate()`; `init` is `i := 0`, `test` is `i < 100`, `recv` is
`<-integers`, `print` is the call of `fmt.Println` on the value received, `incr` is `i++`;
`exit` is `main` returned. -/
inductive MainPc where
  | genMake | genGo | genReturn | init | test | recv | print | incr | exit
  deriving DecidableEq, Repr

/-- The main goroutine: program counter, its local `i`, and the value received last. -/
structure Main where
  pc : MainPc
  i : Int
  v : Int
  deriving DecidableEq, Repr

/-- A state of the program `chan.go`: the channel (none before `make`), the goroutine (none
before the `go` statement), the main goroutine, stdout, and the history of the values sent
and received so far. -/
structure State where
  ch : Option Chan
  prod : Option Prod
  main : Main
  out : String
  sent : List Int
  recvd : List Int
  deriving DecidableEq, Repr

/-- The program at its start. -/
def State.init : State := ⟨none, none, ⟨.genMake, 0, 0⟩, "", [], []⟩

/-- The process is over: `main` has returned, or a goroutine has panicked. -/
def State.halted (s : State) : Bool :=
  s.main.pc = .exit || (s.prod.map (·.pc)) = some .panicked

/-- A step of `main` that needs neither the channel nor the goroutine. -/
def mainStep (bits : Nat) (s : State) : Option State :=
  match s.main.pc with
  | .genMake => some { s with ch := some makeChan, main := { s.main with pc := .genGo } }
  | .genGo => some { s with prod := some goroutine, main := { s.main with pc := .genReturn } }
  | .genReturn => some { s with main := { s.main with pc := .init } }
  | .init => some { s with main := { s.main with pc := .test, i := 0 } }
  | .test =>
    some { s with main := { s.main with pc := if s.main.i < 100 then .recv else .exit } }
  | .recv => none
  | .print =>
    some { s with out := Fmt.Println s.out (.int s.main.v), main := { s.main with pc := .incr } }
  | .incr =>
    some { s with main := { s.main with pc := .test, i := wrapInt bits (s.main.i + 1) } }
  | .exit => none

/-- The successors of a state of the program: none once the process is over; otherwise a
step of `main` alone, a step of the goroutine alone, and, with `main` at `<-integers`, a
receive of a buffered value or a hand-off from the goroutine. -/
def State.next (bits : Nat) (s : State) : List State :=
  if s.halted then [] else
  (mainStep bits s).toList ++
  (match s.ch, s.prod with
    | some c, some p =>
      (match prodStep bits c p with
        | some (c1, p1, sv) => [{ s with ch := some c1, prod := some p1, sent := s.sent ++ sv.toList }]
        | none => []) ++
      (if s.main.pc = .recv then
        (match recvBuffered c with
          | some (v, c1) =>
            [{ s with ch := some c1, main := { s.main with pc := .print, v := v },
                      recvd := s.recvd ++ [v] }]
          | none => []) ++
        (match rendezvous c p with
          | some (v, p1) =>
            [{ s with prod := some p1, main := { s.main with pc := .print, v := v },
                      sent := s.sent ++ [v], recvd := s.recvd ++ [v] }]
          | none => [])
       else [])
    | _, _ => [])

/-- The states the program can be in. -/
inductive Reachable (bits : Nat) : State → Prop where
  | start : Reachable bits State.init
  | step {s t : State} : Reachable bits s → t ∈ s.next bits → Reachable bits t

/-- The first `n` lines of the expected output: the decimal numerals `0`, `1`, ..., `n - 1`,
each followed by a newline. -/
def lines : Nat → String
  | 0 => ""
  | n + 1 => lines n ++ toString n ++ "\n"

/-- The output of a complete run, as the claim about stdout writes it. -/
def expectedStdout : String :=
  "0\n1\n2\n3\n4\n5\n6\n7\n8\n9\n10\n11\n12\n13\n14\n15\n16\n17\n18\n19\n20\n21\n22\n23\n24\n25\n26\n27\n28\n29\n30\n31\n32\n33\n34\n35\n36\n37\n38\n39\n40\n41\n42\n43\n44\n45\n46\n47\n48\n49\n50\n51\n52\n53\n54\n55\n56\n57\n58\n59\n60\n61\n62\n63\n64\n65\n66\n67\n68\n69\n70\n71\n72\n73\n74\n75\n76\n77\n78\n79\n80\n81\n82\n83\n84\n85\n86\n87\n88\n89\n90\n91\n92\n93\n94\n95\n96\n97\n98\n99\n"

/-- The integers `0`, `1`, ..., `n - 1`. -/
def upTo (n : Nat) : List Int := (List.range n).map Int.ofNat

/-- The first `n` values of an `int` counter that starts at zero and is incremented by one:
`0`, `1`, ... as long as they fit, wrapped around after that. -/
def wraps (bits n : Nat) : List Int := (List.range n).map (fun (k : Nat) => wrapInt bits (k : Int))

/-- Executions of `generate` with a receiver: finite sequences of steps. -/
def Gen.Steps (bits : Nat) : Gen → Gen → Prop :=
  Relation.ReflTransGen (fun g h => h ∈ g.next bits)

/-- Executions of the program: finite sequences of steps. -/
def Steps (bits : Nat) : State → State → Prop :=
  Relation.ReflTransGen (fun s t => t ∈ s.next bits)

/-- The state of `generate` in which `k` values have been received and the goroutine is at
its send again. -/
def genAt (bits k : Nat) : Gen :=
  ⟨makeChan, ⟨.send, wrapInt bits (k : Int)⟩, wraps bits k, wraps bits k⟩

/-- The state of the program in which `main` is at its loop test for the `k`-th time and the
goroutine is at its send. -/
def testState (k : Nat) : State :=
  ⟨some makeChan, some ⟨.send, (k : Int)⟩, ⟨.test, (k : Int), ((k - 1 : Nat) : Int)⟩, lines k,
    upTo k, upTo k⟩

/-- The state in which `main` has returned after one hundred receives, the goroutine
being at its send. -/
def finalState : State :=
  ⟨some makeChan, some ⟨.send, 100⟩, ⟨.exit, 100, 99⟩, lines 100, upTo 100, upTo 100⟩

/-- The integers handed to the channel and not yet taken by a receiver: those in the buffer
and the one held by a goroutine waiting at its send. -/
def State.offered (s : State) : List Int :=
  (match s.ch with
    | some c => c.buf
    | none => []) ++
  (match s.prod with
    | some p => if p.pc = .send then [p.i] else []
    | none => [])

/-- The number of steps `main` still has to take. -/
def mainRem (m : Main) : Nat :=
  match m.pc with
  | .genMake => 405
  | .genGo => 404
  | .genReturn => 403
  | .init => 402
  | .test => 4 * (100 - m.i).toNat + 1
  | .recv => 4 * (100 - m.i).toNat
  | .print => 4 * (100 - m.i).toNat - 1
  | .incr => 4 * (100 - m.i).toNat - 2
  | .exit => 0

/-- The number of steps the goroutine can take before it waits at its send. -/
def prodSolo (p : Prod) : Nat :=
  match p.pc with
  | .init => 1
  | .incr => 1
  | _ => 0

/-- A bound on the number of steps left in any execution from a state of the program. -/
def measure (s : State) : Nat :=
  2 * mainRem s.main +
  (match s.prod with
    | some p => prodSolo p
    | none => 0)

/-- The goroutine is where the `n` values received so far put it. -/
def ProdOk (n : Nat) (p : Prod) : Prop :=
  match p.pc with
  | .init => p.i = 0 ∧ n = 0
  | .send => p.i = n
  | .incr => 0 ≤ p.i ∧ p.i + 1 = n
  | .done => False
  | .panicked => False

/-- The main goroutine and stdout are where the `n` values received so far put them. -/
def MainOk (n : Nat) (m : Main) (out : String) : Prop :=
  match m.pc with
  | .genMake => m.i = 0 ∧ n = 0 ∧ out = ""
  | .genGo => m.i = 0 ∧ n = 0 ∧ out = ""
  | .genReturn => m.i = 0 ∧ n = 0 ∧ out = ""
  | .init => m.i = 0 ∧ n = 0 ∧ out = ""
  | .test => m.i = n ∧ n ≤ 100 ∧ out = lines n
  | .recv => m.i = n ∧ n < 100 ∧ out = lines n
  | .print => 0 ≤ m.i ∧ m.i + 1 = n ∧ n ≤ 100 ∧ m.v = m.i ∧ out = lines (n - 1)
  | .incr => 0 ≤ m.i ∧ m.i + 1 = n ∧ n ≤ 100 ∧ out = lines n
  | .exit => m.i = 100 ∧ n = 100 ∧ out = lines 100

/-- The invariant of `chan.go`: what is sent is received, the values received are
`0`, `1`, ... in order, the channel is the one `make` returned, and both goroutines are where
the number of values received puts them. -/
structure Inv (s : State) : Prop where
  hist : s.sent = s.recvd
  vals : s.recvd = upTo s.recvd.length
  chan : s.ch = if s.main.pc = .genMake then none else some makeChan
  prod : match s.prod with
    | none => s.main.pc = .genMake ∨ s.main.pc = .genGo
    | some p => s.main.pc ≠ .genMake ∧ s.main.pc ≠ .genGo ∧ ProdOk s.recvd.length p
  main : MainOk s.recvd.length s.main s.out

/-- The invariant of `generate` with any receiver: the channel is the one `make` returned,
what is sent is received, the values received are those of the wrapping counter, and the
goroutine is where the number of values received puts it. -/
structure GenInv (bits : Nat) (g : Gen) : Prop where
  chan : g.ch = makeChan
  hist : g.sent = g.recvd
  vals : g.recvd = wraps bits g.recvd.length
  prod : match g.prod.pc with
    | .init => g.recvd = []
    | .send => g.prod.i = wrapInt bits (g.recvd.length : Int)
    | .incr => 1 ≤ g.recvd.length ∧ g.prod.i = wrapInt bits ((g.recvd.length : Int) - 1)
    | .done => False
    | .panicked => False

end ChanGo

/-! ## types.go -/

namespace TypesGo

/-- The five type names declared in `types.go`. -/
inductive TypeName where
  | T | T1 | T2 | S1 | S2
  deriving DecidableEq, Repr

/-- The type of a variable or of a struct field: a pointer `*N` to a named type, or a named
type `N` itself. -/
inductive Ty where
  | ptr (elem : TypeName)
  | name (n : TypeName)
  deriving DecidableEq, Repr

/-- The right-hand side of a type declaration: a type, or a struct with named fields. -/
inductive Underlying where
  | ty (t : Ty)
  | struct (fields : List (String × Ty))
  deriving DecidableEq, Repr

/-- The declarations of `types.go`: `type T *T`, `type T1 *T2`, `type T2 *T1`,
`type S1 struct { p_s2 *S2 }` and `type S2 struct { p_s1 *S1 }`. -/
def decls : TypeName → Underlying
  | .T => .ty (.ptr .T)
  | .T1 => .ty (.ptr .T2)
  | .T2 => .ty (.ptr .T1)
  | .S1 => .struct [("p_s2", .ptr .S2)]
  | .S2 => .struct [("p_s1", .ptr .S1)]

/-- The results of the list when all of them are there, none otherwise. -/
def collect {α : Type} : List (Option α) → Option (List α)
  | [] => some []
  | o :: rest => o.bind (fun a => (collect rest).map (fun as => a :: as))

/-- The size, in machine words, of a value of type `t`, given the sizes of named types:
a pointer is one word whatever it points to. -/
def sizeOfTy (sizeOfName : TypeName → Option Nat) : Ty → Option Nat
  | .ptr _ => some 1
  | .name n => sizeOfName n

/-- The size, in machine words, of a value of the named type `n` under the declarations `D`.
Each unit of fuel allows the look-up of one declaration; without fuel there is no size, which
is how a type that contains itself by value, and so has no size, shows. -/
def sizeOf (D : TypeName → Underlying) : Nat → TypeName → Option Nat
  | 0, _ => none
  | fuel + 1, n =>
    match D n with
    | .ty t => sizeOfTy (sizeOf D fuel) t
    | .struct fields =>
      (collect (fields.map (fun f => sizeOfTy (sizeOf D fuel) f.2))).map List.sum

/-- The zero value of type `t`, given the zero values of named types: a pointer is nil
whatever it points to. -/
def zeroOfTy (zeroOfName : TypeName → Option Fmt.Value) : Ty → Option Fmt.Value
  | .ptr _ => some .nil
  | .name n => zeroOfName n

/-- The zero value of the named type `n` under the declarations `D`, with fuel as in
`sizeOf`: the zero value of the underlying type, a struct having the zero values of its
fields in the order of their declaration. -/
def zeroValue (D : TypeName → Underlying) : Nat → TypeName → Option Fmt.Value
  | 0, _ => none
  | fuel + 1, n =>
    match D n with
    | .ty t => zeroOfTy (zeroValue D fuel) t
    | .struct fields =>
      (collect (fields.map (fun f => zeroOfTy (zeroValue D fuel) f.2))).map Fmt.Value.struct

/-- Fuel that suffices for every legal set of declarations over the five names: a chain of
by-value look-ups longer than the number of names repeats a name. -/
def fuel : Nat := 5

mutual
/-- Whether a value holds a referent: a pointer that is not nil, in the value itself or in a
field of it. -/
def hasReferent : Fmt.Value → Bool
  | .int _ => false
  | .str _ => false
  | .nil => false
  | .addr _ => true
  | .struct fs => anyReferent fs
/-- Whether one of the values holds a referent. -/
def anyReferent : List Fmt.Value → Bool
  | [] => false
  | v :: rest => hasReferent v || anyReferent rest
end

/-- The text of the lines `ls`, each followed by a newline. -/
def unlines (ls : List String) : String :=
  String.join (ls.map (· ++ "\n"))

/-- The number of lines of a text: the number of its newlines. -/
def lineCount (s : String) : Nat := s.toList.count (Char.ofNat 10)

/-- The program `types.go`: `main` prints the greeting, declares `t` of type `T` and prints
it, declares `s1` of type `S1` and `s2` of type `S2` and prints them. The result is stdout;
there would be none for declarations that do not compile. -/
def main : Option String := do
  let out := Fmt.Println "" (.str "Shall we?")
  let t ← zeroValue decls fuel .T
  let out := Fmt.Println out t
  let s1 ← zeroValue decls fuel .S1
  let s2 ← zeroValue decls fuel .S2
  let out := Fmt.Println out s1
  let out := Fmt.Println out s2
  pure out

/-- Declarations that Go rejects, for contrast: the structs of `types.go` with the two
fields held by value instead of through a pointer. -/
def declsByValue : TypeName → Underlying
  | .T => .ty (.ptr .T)
  | .T1 => .ty (.ptr .T2)
  | .T2 => .ty (.ptr .T1)
  | .S1 => .struct [("p_s2", .name .S2)]
  | .S2 => .struct [("p_s1", .name .S1)]

end TypesGo

/-! ## Theorems about chan.go -/

namespace ChanGo

/-! ### Arithmetic of `int` -/

theorem two_pow_bits {bits : Nat} (hb : 0 < bits) :
    (2 : Int) ^ bits = 2 * 2 ^ (bits - 1) := by
  obtain ⟨k, rfl⟩ : ∃ k, bits = k + 1 := ⟨bits - 1, by omega⟩
  simp [pow_succ]; ring

theorem wrapInt_eq_self {bits : Nat} (hb : 0 < bits) {x : Int}
    (hlo : -(2 : Int) ^ (bits - 1) ≤ x) (hhi : x < 2 ^ (bits - 1)) : wrapInt bits x = x := by
  unfold wrapInt
  have h2 := two_pow_bits hb
  rw [Int.emod_eq_of_lt (by omega) (by omega)]
  omega

theorem pow_bits_ge {bits : Nat} (hb : 8 ≤ bits) : (128 : Int) ≤ 2 ^ (bits - 1) := by
  have h : (2 : Int) ^ 7 ≤ 2 ^ (bits - 1) := pow_le_pow_right₀ (by norm_num) (by omega)
  norm_num at h
  exact h

theorem wrapInt_small {bits : Nat} (hb : 8 ≤ bits) {x : Int} (h0 : 0 ≤ x) (h1 : x ≤ 100) :
    wrapInt bits x = x := by
  have := pow_bits_ge hb
  exact wrapInt_eq_self (by omega) (by omega) (by omega)

theorem wrapInt_natCast {bits : Nat} (hb : 8 ≤ bits) {n : Nat} (h : n ≤ 100) :
    wrapInt bits (n : Int) = n :=
  wrapInt_small hb (by omega) (by omega)

theorem wrapInt_succ (bits : Nat) (x : Int) :
    wrapInt bits (wrapInt bits x + 1) = wrapInt bits (x + 1) := by
  unfold wrapInt
  have : (x + 2 ^ (bits - 1)) % 2 ^ bits - 2 ^ (bits - 1) + 1 + 2 ^ (bits - 1)
      = (x + 2 ^ (bits - 1)) % 2 ^ bits + 1 := by ring
  rw [this, Int.emod_add_emod]
  congr 2
  ring

theorem wrapInt_zero {bits : Nat} (hb : 0 < bits) : wrapInt bits 0 = 0 :=
  wrapInt_eq_self hb (by simp) (by positivity)

/-- At the first value that does not fit, the counter is at the least `int`. -/
theorem wrapInt_half {bits : Nat} (hb : 0 < bits) :
    wrapInt bits (2 ^ (bits - 1)) = -2 ^ (bits - 1) := by
  unfold wrapInt
  have h2 := two_pow_bits hb
  have hp : (0 : Int) < 2 ^ (bits - 1) := by positivity
  have : (2 : Int) ^ (bits - 1) + 2 ^ (bits - 1) = 2 ^ bits := by omega
  rw [this, Int.emod_self]
  simp

/-! ### The expected values and lines -/

theorem upTo_succ (n : Nat) : upTo (n + 1) = upTo n ++ [(n : Int)] := by
  simp [upTo, List.range_succ]

theorem upTo_length (n : Nat) : (upTo n).length = n := by simp [upTo]

theorem upTo_eq_nil (n : Nat) : upTo n = [] ↔ n = 0 := by
  cases n <;> simp [upTo, List.range_succ]

theorem wraps_succ (bits n : Nat) :
    wraps bits (n + 1) = wraps bits n ++ [wrapInt bits (n : Int)] := by
  rw [wraps, wraps, List.range_succ, List.map_append, List.map_singleton]

theorem wraps_length (bits n : Nat) : (wraps bits n).length = n := by simp [wraps]

theorem lines_zero : lines 0 = "" := rfl

theorem println_lines (k : Nat) : Fmt.Println (lines k) (.int (k : Int)) = lines (k + 1) := rfl

theorem println_lines_pred {n : Nat} {i : Int} (h0 : 0 ≤ i) (h : i + 1 = n) :
    Fmt.Println (lines (n - 1)) (.int i) = lines n := by
  obtain ⟨k, rfl⟩ : ∃ k, n = k + 1 := ⟨n - 1, by omega⟩
  obtain rfl : i = k := by omega
  exact println_lines k

set_option maxRecDepth 100000 in
theorem lines_hundred : lines 100 = expectedStdout := by decide

theorem lines_extends {n m : Nat} (h : n ≤ m) : ∃ rest, lines m = lines n ++ rest := by
  induction m with
  | zero =>
    obtain rfl : n = 0 := by omega
    exact ⟨"", rfl⟩
  | succ m ih =>
    rcases Nat.lt_or_ge n (m + 1) with hlt | hge
    · obtain ⟨r, hr⟩ := ih (by omega)
      refine ⟨r ++ toString m ++ "\n", ?_⟩
      show lines m ++ toString m ++ "\n" = _
      rw [hr]
      simp [String.append_assoc]
    · obtain rfl : n = m + 1 := by omega
      exact ⟨"", by simp⟩

/-! ### The invariant of the program -/

theorem inv_iff (s : State) : Inv s ↔
    s.sent = s.recvd ∧ s.recvd = upTo s.recvd.length ∧
    (s.ch = if s.main.pc = .genMake then none else some makeChan) ∧
    (match s.prod with
      | none => s.main.pc = .genMake ∨ s.main.pc = .genGo
      | some p => s.main.pc ≠ .genMake ∧ s.main.pc ≠ .genGo ∧ ProdOk s.recvd.length p) ∧
    MainOk s.recvd.length s.main s.out :=
  ⟨fun h => ⟨h.hist, h.vals, h.chan, h.prod, h.main⟩,
   fun h => ⟨h.1, h.2.1, h.2.2.1, h.2.2.2.1, h.2.2.2.2⟩⟩

theorem inv_init : Inv State.init := by
  constructor <;> simp [State.init, upTo, MainOk]

theorem inv_step {bits : Nat} (hb : 8 ≤ bits) {s : State} (h : Inv s) :
    ∀ t ∈ s.next bits, Inv t := by
  obtain ⟨ch, prod, ⟨pc, i, v⟩, out, sent, recvd⟩ := s
  obtain ⟨h1, h2, h3, h4, h5⟩ := h
  simp only at h1 h2 h3 h4 h5
  subst h1
  rcases prod with _ | ⟨ppc, pi⟩
  · cases pc <;> simp at h4 <;> simp [MainOk] at h5 <;> simp at h3 <;> subst h3 <;>
      simp [State.next, State.halted, mainStep, makeChan, goroutine, inv_iff, MainOk, ProdOk,
        upTo, h5]
  · cases pc <;> simp at h4 <;> simp [MainOk] at h5 <;> simp at h3 <;> subst h3 <;>
      cases ppc <;> simp [ProdOk] at h4 <;>
      simp [State.next, State.halted, mainStep, prodStep, recvBuffered, rendezvous, makeChan,
        goroutine, inv_iff, MainOk, ProdOk]
    all_goals
      obtain ⟨n, hn⟩ : ∃ n, sent.length = n := ⟨_, rfl⟩
      rw [hn] at h2
      subst h2
      simp only [upTo_length, upTo_eq_nil] at *
    all_goals try split_ifs
    all_goals simp_all [upTo_succ, lines_zero]
    all_goals try omega
    all_goals try exact wrapInt_natCast hb (by omega)
    all_goals first
      | exact println_lines_pred h5.1 h5.2.1
      | exact ⟨println_lines_pred h5.1 h5.2.1, wrapInt_natCast hb h5.2.2.1⟩
      | (obtain rfl : n = 100 := by omega
         simp
         try exact wrapInt_small hb (by norm_num) (by norm_num))

theorem reachable_inv {bits : Nat} (hb : 8 ≤ bits) {s : State} (h : Reachable bits s) :
    Inv s := by
  induction h with
  | start => exact inv_init
  | step _ ht ih => exact inv_step hb ih _ ht

theorem progress {bits : Nat} {s : State} (h : Inv s) (hpc : s.main.pc ≠ .exit) :
    s.next bits ≠ [] := by
  obtain ⟨ch, prod, ⟨pc, i, v⟩, out, sent, recvd⟩ := s
  obtain ⟨h1, h2, h3, h4, h5⟩ := h
  simp only at h1 h2 h3 h4 h5 hpc
  rcases prod with _ | ⟨ppc, pi⟩
  · cases pc <;> simp at h4 <;> simp at h3 <;> subst h3 <;>
      simp [State.next, State.halted, mainStep]
  · cases pc <;> simp at h4 hpc <;> simp at h3 <;> subst h3 <;>
      cases ppc <;> simp [ProdOk] at h4 <;>
      simp [State.next, State.halted, mainStep, prodStep, recvBuffered, rendezvous, makeChan]

theorem halted_next {bits : Nat} {s : State} (hpc : s.main.pc = .exit) : s.next bits = [] := by
  simp [State.next, State.halted, hpc]

theorem measure_step {bits : Nat} (hb : 8 ≤ bits) {s : State} (h : Inv s) :
    ∀ t ∈ s.next bits, measure t < measure s := by
  obtain ⟨ch, prod, ⟨pc, i, v⟩, out, sent, recvd⟩ := s
  obtain ⟨h1, h2, h3, h4, h5⟩ := h
  simp only at h1 h2 h3 h4 h5
  rcases prod with _ | ⟨ppc, pi⟩
  · cases pc <;> simp at h4 <;> simp at h3 <;> subst h3 <;>
      simp [State.next, State.halted, mainStep, measure, mainRem, prodSolo, goroutine]
  · cases pc <;> simp at h4 <;> simp [MainOk] at h5 <;> simp at h3 <;> subst h3 <;>
      cases ppc <;> simp [ProdOk] at h4 <;>
      simp [State.next, State.halted, mainStep, prodStep, recvBuffered, rendezvous, makeChan,
        measure, mainRem, prodSolo]
    all_goals try split_ifs
    all_goals try simp only []
    all_goals try rw [wrapInt_small hb (by omega) (by omega)]
    all_goals omega

end ChanGo

namespace ChanGo

/-! ### Executions that exist -/

theorem reachable_of_steps {bits : Nat} {s t : State} (hs : Reachable bits s)
    (h : Steps bits s t) : Reachable bits t := by
  induction h with
  | refl => exact hs
  | tail _ hstep ih => exact Reachable.step ih hstep

theorem reachable_testState_zero (bits : Nat) : Reachable bits (testState 0) := by
  have h1 : Reachable bits ⟨some makeChan, none, ⟨.genGo, 0, 0⟩, "", [], []⟩ :=
    Reachable.step Reachable.start (by simp [State.next, State.halted, mainStep, State.init])
  have h2 : Reachable bits ⟨some makeChan, some goroutine, ⟨.genReturn, 0, 0⟩, "", [], []⟩ :=
    Reachable.step h1 (by simp [State.next, State.halted, mainStep])
  have h3 : Reachable bits ⟨some makeChan, some goroutine, ⟨.init, 0, 0⟩, "", [], []⟩ :=
    Reachable.step h2 (by simp [State.next, State.halted, mainStep, goroutine])
  have h4 : Reachable bits ⟨some makeChan, some goroutine, ⟨.test, 0, 0⟩, "", [], []⟩ :=
    Reachable.step h3 (by simp [State.next, State.halted, mainStep, goroutine])
  have h5 : Reachable bits ⟨some makeChan, some ⟨.send, 0⟩, ⟨.test, 0, 0⟩, "", [], []⟩ :=
    Reachable.step h4 (by simp [State.next, State.halted, mainStep, goroutine, prodStep])
  exact h5

theorem reachable_testState {bits : Nat} (hb : 8 ≤ bits) :
    ∀ k, k ≤ 100 → Reachable bits (testState k) := by
  intro k
  induction k with
  | zero => exact fun _ => reachable_testState_zero bits
  | succ k ih =>
    intro hk
    have h0 := ih (by omega)
    have hw : wrapInt bits ((k : Int) + 1) = ((k + 1 : Nat) : Int) := by
      rw [wrapInt_small hb (by omega) (by omega)]
      simp
    have hlt : (k : Int) < 100 := by omega
    have h1 : Reachable bits ⟨some makeChan, some ⟨.send, (k : Int)⟩,
        ⟨.recv, (k : Int), ((k - 1 : Nat) : Int)⟩, lines k, upTo k, upTo k⟩ :=
      Reachable.step h0 (by simp [State.next, State.halted, mainStep, testState, hlt])
    have h2 : Reachable bits ⟨some makeChan, some ⟨.incr, (k : Int)⟩,
        ⟨.print, (k : Int), (k : Int)⟩, lines k, upTo (k + 1), upTo (k + 1)⟩ :=
      Reachable.step h1 (by
        simp [State.next, State.halted, mainStep, prodStep, recvBuffered, rendezvous, makeChan,
          upTo_succ])
    have h3 : Reachable bits ⟨some makeChan, some ⟨.incr, (k : Int)⟩,
        ⟨.incr, (k : Int), (k : Int)⟩, lines (k + 1), upTo (k + 1), upTo (k + 1)⟩ :=
      Reachable.step h2 (by
        simp [State.next, State.halted, mainStep, prodStep, makeChan, println_lines])
    have h4 : Reachable bits ⟨some makeChan, some ⟨.incr, (k : Int)⟩,
        ⟨.test, ((k + 1 : Nat) : Int), (k : Int)⟩, lines (k + 1), upTo (k + 1), upTo (k + 1)⟩ :=
      Reachable.step h3 (by
        simp only [State.next, State.halted, mainStep, prodStep, makeChan, hw]
        simp)
    have h5 : Reachable bits (testState (k + 1)) :=
      Reachable.step h4 (by
        simp only [State.next, State.halted, mainStep, prodStep, makeChan, hw, testState]
        simp)
    exact h5

theorem reachable_finalState {bits : Nat} (hb : 8 ≤ bits) : Reachable bits finalState :=
  Reachable.step (reachable_testState hb 100 le_rfl) (by
    simp [State.next, State.halted, mainStep, testState, finalState])

/-- From every state of the invariant some execution leads `main` to its return. -/
theorem steps_to_exit {bits : Nat} (hb : 8 ≤ bits) :
    ∀ (m : Nat) (s : State), measure s = m → Inv s →
      ∃ t, Steps bits s t ∧ t.main.pc = .exit := by
  intro m
  induction m using Nat.strong_induction_on with
  | _ m ih =>
    intro s hm hinv
    by_cases hpc : s.main.pc = .exit
    · exact ⟨s, Relation.ReflTransGen.refl, hpc⟩
    · obtain ⟨u, hu⟩ := List.exists_mem_of_ne_nil _ (@progress bits _ hinv hpc)
      have hlt := measure_step hb hinv u hu
      obtain ⟨t, ht, hexit⟩ := ih (measure u) (hm ▸ hlt) u rfl (inv_step hb hinv u hu)
      exact ⟨t, Relation.ReflTransGen.head hu ht, hexit⟩

end ChanGo

namespace ChanGo

/-! ### Consequences of the invariant -/

theorem inv_out {s : State} (h : Inv s) : ∃ n, n ≤ 100 ∧ s.out = lines n := by
  obtain ⟨ch, prod, ⟨pc, i, v⟩, out, sent, recvd⟩ := s
  have h5 := h.main
  cases pc <;> simp [MainOk] at h5
  · exact ⟨0, by omega, h5.2.2⟩
  · exact ⟨0, by omega, h5.2.2⟩
  · exact ⟨0, by omega, h5.2.2⟩
  · exact ⟨0, by omega, h5.2.2⟩
  · exact ⟨_, h5.2.1, h5.2.2⟩
  · exact ⟨_, by omega, h5.2.2⟩
  · exact ⟨_, by omega, h5.2.2.2.2⟩
  · exact ⟨_, h5.2.2.1, h5.2.2.2⟩
  · exact ⟨100, le_rfl, h5.2.2⟩

theorem inv_count {s : State} (h : Inv s) : s.recvd.length ≤ 100 := by
  obtain ⟨ch, prod, ⟨pc, i, v⟩, out, sent, recvd⟩ := s
  have h5 := h.main
  cases pc <;> simp [MainOk] at h5 <;> simp <;> first | omega | simp [h5.2.1]

theorem inv_exit {s : State} (h : Inv s) (hpc : s.main.pc = .exit) :
    s.recvd.length = 100 ∧ s.out = lines 100 ∧ s.main.i = 100 := by
  obtain ⟨ch, prod, ⟨pc, i, v⟩, out, sent, recvd⟩ := s
  have h5 := h.main
  simp only at hpc
  subst hpc
  simp [MainOk] at h5
  exact ⟨h5.2.1, h5.2.2, h5.1⟩

theorem inv_terminal {bits : Nat} {s : State} (h : Inv s) (hn : s.next bits = []) :
    s.main.pc = .exit := by
  by_contra hpc
  exact progress h hpc hn

theorem inv_prod {s : State} (h : Inv s) {p : Prod} (hp : s.prod = some p) :
    ProdOk s.recvd.length p := by
  have h4 := h.prod
  rw [hp] at h4
  exact h4.2.2

theorem inv_prod_exists {s : State} (h : Inv s) (h1 : s.main.pc ≠ .genMake)
    (h2 : s.main.pc ≠ .genGo) : ∃ p, s.prod = some p := by
  have h4 := h.prod
  cases hp : s.prod with
  | none =>
    rw [hp] at h4
    rcases h4 with h4 | h4
    · exact absurd h4 h1
    · exact absurd h4 h2
  | some p => exact ⟨p, rfl⟩

theorem upTo_pairwise (n : Nat) : (upTo n).Pairwise (· < ·) := by
  unfold upTo
  rw [List.pairwise_map]
  exact (List.pairwise_lt_range n).imp (fun h => Int.ofNat_lt.mpr h)

theorem upTo_take {n m : Nat} (h : n ≤ m) : (upTo m).take n = upTo n := by
  unfold upTo
  rw [← List.map_take, List.take_range, Nat.min_eq_left h]

theorem upTo_initial {n m : Nat} (h : n ≤ m) : upTo n <+: upTo m := by
  rw [← upTo_take h]
  exact List.take_prefix _ _

theorem mem_upTo {n m : Nat} (h : m < n) : (m : Int) ∈ upTo n := by
  unfold upTo
  exact List.mem_map.mpr ⟨m, List.mem_range.mpr h, rfl⟩

end ChanGo

namespace ChanGo

/-! ### The claims about `main` -/

/-- C1: whatever the interleaving of the goroutine and `main`, stdout is at every moment the
first `n` lines of `0`, `1`, ..., `99` for some `n` (so a beginning of the expected output);
when the run is over (no step is left) it is exactly the hundred lines; and the run does get
over: every step lowers `measure`, and from every reachable state some execution ends with
no step left and the hundred lines on stdout. -/
theorem chan_main_stdout (bits : Nat) (hb : 8 ≤ bits) (s : State) (hs : Reachable bits s) :
    (∃ n rest, n ≤ 100 ∧ s.out = lines n ∧ expectedStdout = s.out ++ rest) ∧
    (s.next bits = [] → s.out = expectedStdout) ∧
    (∀ t ∈ s.next bits, measure t < measure s) ∧
    (∃ t, Steps bits s t ∧ t.next bits = [] ∧ t.out = expectedStdout) := by
  have hinv := reachable_inv hb hs
  refine ⟨?_, ?_, measure_step hb hinv, ?_⟩
  · obtain ⟨n, hn, hout⟩ := inv_out hinv
    obtain ⟨rest, hrest⟩ := lines_extends hn
    exact ⟨n, rest, hn, hout, by rw [← lines_hundred, hrest, hout]⟩
  · intro hterm
    rw [(inv_exit hinv (inv_terminal hinv hterm)).2.1, lines_hundred]
  · obtain ⟨t, hst, hexit⟩ := steps_to_exit hb _ s rfl hinv
    have hinvt := reachable_inv hb (reachable_of_steps hs hst)
    exact ⟨t, hst, halted_next hexit, by rw [(inv_exit hinvt hexit).2.1, lines_hundred]⟩

theorem chan_main_stdout_witness :
    8 ≤ 64 ∧ Reachable 64 finalState ∧ finalState.next 64 = [] ∧
      finalState.out = expectedStdout :=
  ⟨by decide, reachable_finalState (by decide), halted_next rfl,
    (chan_main_stdout 64 (by decide) finalState (reachable_finalState (by decide))).2.1
      (halted_next rfl)⟩

/-- C3: in every reachable state with fewer than one hundred values received a step is
enabled, and so is one in every state in which `main` has not returned; never more than one
hundred values are received; every step lowers `measure`, so every execution is finite; some
execution from the state leads `main` to its return; and when `main` has returned exactly one
hundred values have been received, the process has no step left, and the goroutine is
still at its send or at its increment. -/
theorem chan_main_terminates (bits : Nat) (hb : 8 ≤ bits) (s : State)
    (hs : Reachable bits s) :
    (s.recvd.length < 100 → s.next bits ≠ []) ∧
    (s.main.pc ≠ .exit → s.next bits ≠ []) ∧
    s.recvd.length ≤ 100 ∧
    (∀ t ∈ s.next bits, measure t < measure s) ∧
    (∃ t, Steps bits s t ∧ t.main.pc = .exit) ∧
    (s.main.pc = .exit →
      s.recvd.length = 100 ∧ s.next bits = [] ∧
      ∃ p, s.prod = some p ∧ (p.pc = .send ∨ p.pc = .incr)) := by
  have hinv := reachable_inv hb hs
  refine ⟨?_, progress hinv, inv_count hinv, measure_step hb hinv,
    steps_to_exit hb _ s rfl hinv, ?_⟩
  · intro hlt
    apply progress hinv
    intro hpc
    have := (inv_exit hinv hpc).1
    omega
  · intro hpc
    refine ⟨(inv_exit hinv hpc).1, halted_next hpc, ?_⟩
    obtain ⟨p, hp⟩ := inv_prod_exists hinv (by simp [hpc]) (by simp [hpc])
    refine ⟨p, hp, ?_⟩
    have hok := inv_prod hinv hp
    obtain ⟨ppc, pi⟩ := p
    have hlen := (inv_exit hinv hpc).1
    cases ppc <;> simp [ProdOk] at hok ⊢
    rw [hok.2] at hlen
    simp at hlen

theorem chan_main_terminates_witness :
    8 ≤ 64 ∧ Reachable 64 finalState ∧ finalState.main.pc = .exit ∧
      finalState.recvd.length = 100 ∧ finalState.next 64 = [] :=
  ⟨by decide, reachable_finalState (by decide), rfl,
    ((chan_main_terminates 64 (by decide) finalState
      (reachable_finalState (by decide))).2.2.2.2.2 rfl).1,
    ((chan_main_terminates 64 (by decide) finalState
      (reachable_finalState (by decide))).2.2.2.2.2 rfl).2.1⟩

/-- C8: the values received do not depend on the schedule. Of two reachable states, reached
by any two interleavings, the one that has received the same number of values has received
the same values; in general, the values received in one are the first values received in the
other; two runs that are over have received the same values and written the same stdout; and
the values received are strictly increasing, so none comes out of order or twice. -/
theorem chan_schedule_independent (bits : Nat) (hb : 8 ≤ bits) (s₁ s₂ : State)
    (h₁ : Reachable bits s₁) (h₂ : Reachable bits s₂) :
    (s₁.recvd.length = s₂.recvd.length → s₁.recvd = s₂.recvd) ∧
    (s₁.recvd <+: s₂.recvd ∨ s₂.recvd <+: s₁.recvd) ∧
    (s₁.next bits = [] → s₂.next bits = [] → s₁.recvd = s₂.recvd ∧ s₁.out = s₂.out) ∧
    s₁.recvd.Pairwise (· < ·) := by
  have i₁ := reachable_inv hb h₁
  have i₂ := reachable_inv hb h₂
  refine ⟨?_, ?_, ?_, ?_⟩
  · intro hlen
    rw [i₁.vals, i₂.vals, hlen]
  · rw [i₁.vals, i₂.vals]
    rcases Nat.le_total s₁.recvd.length s₂.recvd.length with h | h
    · exact Or.inl (upTo_initial h)
    · exact Or.inr (upTo_initial h)
  · intro t₁ t₂
    have e₁ := inv_exit i₁ (inv_terminal i₁ t₁)
    have e₂ := inv_exit i₂ (inv_terminal i₂ t₂)
    refine ⟨?_, by rw [e₁.2.1, e₂.2.1]⟩
    rw [i₁.vals, i₂.vals, e₁.1, e₂.1]
  · rw [i₁.vals]
    exact upTo_pairwise _

theorem chan_schedule_independent_witness :
    8 ≤ 64 ∧ Reachable 64 (testState 3) ∧ Reachable 64 finalState ∧
      ((testState 3).recvd <+: finalState.recvd ∨ finalState.recvd <+: (testState 3).recvd) :=
  ⟨by decide, reachable_testState (by decide) 3 (by decide), reachable_finalState (by decide),
    (chan_schedule_independent 64 (by decide) (testState 3) finalState
      (reachable_testState (by decide) 3 (by decide)) (reachable_finalState (by decide))).2.1⟩

/-- C9: in every reachable state as many sends have completed as receives, and the values
sent are the values received; the channel has capacity zero and nothing is ever buffered; a
step that completes the send of `n` completes the receive of `n`; a goroutine offering
`m + 1` at its send implies that `m` has been received; and at most one integer is held for
the receiver at any time. -/
theorem chan_unbuffered_handoff (bits : Nat) (hb : 8 ≤ bits) (s : State)
    (hs : Reachable bits s) :
    s.sent.length = s.recvd.length ∧ s.sent = s.recvd ∧
    (∀ c, s.ch = some c → c.cap = 0 ∧ c.buf = []) ∧
    (∀ t ∈ s.next bits, ∀ n, t.sent = s.sent ++ [n] → t.recvd = s.recvd ++ [n]) ∧
    (∀ (p : Prod) (m : Nat), s.prod = some p → p.pc = .send → p.i = (m : Int) + 1 →
      (m : Int) ∈ s.recvd) ∧
    s.offered.length ≤ 1 := by
  have hinv := reachable_inv hb hs
  refine ⟨by rw [hinv.hist], hinv.hist, ?_, ?_, ?_, ?_⟩
  · intro c hc
    have h3 := hinv.chan
    rw [hc] at h3
    split_ifs at h3
    obtain rfl : c = makeChan := Option.some.inj h3
    exact ⟨rfl, rfl⟩
  · intro t ht n hn
    have hinvt := inv_step hb hinv t ht
    rw [← hinvt.hist, hn, hinv.hist]
  · intro p m hp hpc hi
    have hok := inv_prod hinv hp
    obtain ⟨ppc, pi⟩ := p
    simp only at hpc hi
    subst hpc
    simp only [ProdOk] at hok
    rw [hinv.vals]
    exact mem_upTo (by omega)
  · have h3 := hinv.chan
    unfold State.offered
    rw [h3]
    split_ifs <;> cases s.prod <;> simp [makeChan] <;> split_ifs <;> simp

theorem chan_unbuffered_handoff_witness :
    8 ≤ 64 ∧ Reachable 64 (testState 3) ∧ (testState 3).sent = (testState 3).recvd ∧
      (testState 3).offered.length ≤ 1 :=
  ⟨by decide, reachable_testState (by decide) 3 (by decide),
    (chan_unbuffered_handoff 64 (by decide) (testState 3)
      (reachable_testState (by decide) 3 (by decide))).2.1,
    (chan_unbuffered_handoff 64 (by decide) (testState 3)
      (reachable_testState (by decide) 3 (by decide))).2.2.2.2.2⟩

/-- C10: in every reachable state the counter `i` of the goroutine satisfies `0 ≤ i ≤ 100`
and is at most the number of values received plus one, that number being at most one hundred;
at `i++` the incremented value fits in an `int`, so the increment does not wrap; the counter
of `main` is between `0` and `100` as well; and the values received are the integers
`0`, `1`, ... themselves. -/
theorem chan_counter_in_range (bits : Nat) (hb : 8 ≤ bits) (s : State)
    (hs : Reachable bits s) :
    (∀ p, s.prod = some p →
      0 ≤ p.i ∧ p.i ≤ 100 ∧ p.i ≤ (s.recvd.length : Int) + 1 ∧
      (p.pc = .incr → p.i + 1 < 2 ^ (bits - 1) ∧ wrapInt bits (p.i + 1) = p.i + 1)) ∧
    s.recvd.length ≤ 100 ∧
    (0 ≤ s.main.i ∧ s.main.i ≤ 100) ∧
    (s.main.pc = .incr → wrapInt bits (s.main.i + 1) = s.main.i + 1) ∧
    s.recvd = upTo s.recvd.length := by
  have hinv := reachable_inv hb hs
  have hcount := inv_count hinv
  have hpow := pow_bits_ge hb
  refine ⟨?_, hcount, ?_, ?_, hinv.vals⟩
  · intro p hp
    have hok := inv_prod hinv hp
    obtain ⟨ppc, pi⟩ := p
    cases ppc <;> simp [ProdOk] at hok ⊢
    · omega
    · omega
    · refine ⟨hok.1, by omega, by omega, by omega, ?_⟩
      exact wrapInt_small hb (by omega) (by omega)
  · obtain ⟨ch, prod, ⟨pc, i, v⟩, out, sent, recvd⟩ := s
    have h5 := hinv.main
    simp only at hcount
    cases pc <;> simp [MainOk] at h5 ⊢ <;> omega
  · intro hpc
    obtain ⟨ch, prod, ⟨pc, i, v⟩, out, sent, recvd⟩ := s
    have h5 := hinv.main
    simp only at hcount hpc
    subst hpc
    simp [MainOk] at h5
    show wrapInt bits (i + 1) = i + 1
    exact wrapInt_small hb (by omega) (by omega)

theorem chan_counter_in_range_witness :
    8 ≤ 64 ∧ Reachable 64 finalState ∧ finalState.recvd.length ≤ 100 ∧
      (0 ≤ finalState.main.i ∧ finalState.main.i ≤ 100) :=
  ⟨by decide, reachable_finalState (by decide),
    (chan_counter_in_range 64 (by decide) finalState (reachable_finalState (by decide))).2.1,
    (chan_counter_in_range 64 (by decide) finalState
      (reachable_finalState (by decide))).2.2.1⟩

end ChanGo

namespace ChanGo

/-! ### `generate` with any receiver -/

theorem genInv_iff (bits : Nat) (g : Gen) : GenInv bits g ↔
    g.ch = makeChan ∧ g.sent = g.recvd ∧ g.recvd = wraps bits g.recvd.length ∧
    (match g.prod.pc with
      | .init => g.recvd = []
      | .send => g.prod.i = wrapInt bits (g.recvd.length : Int)
      | .incr => 1 ≤ g.recvd.length ∧ g.prod.i = wrapInt bits ((g.recvd.length : Int) - 1)
      | .done => False
      | .panicked => False) :=
  ⟨fun h => ⟨h.chan, h.hist, h.vals, h.prod⟩, fun h => ⟨h.1, h.2.1, h.2.2.1, h.2.2.2⟩⟩

theorem genInv_start (bits : Nat) : GenInv bits generate := by
  simp [genInv_iff, generate, goroutine, wraps]

theorem genInv_step {bits : Nat} (hb : 0 < bits) {g : Gen} (h : GenInv bits g) :
    ∀ h ∈ g.next bits, GenInv bits h := by
  obtain ⟨ch, ⟨ppc, pi⟩, sent, recvd⟩ := g
  obtain ⟨h1, h2, h3, h4⟩ := h
  simp only at h1 h2 h3 h4
  subst h1 h2
  obtain ⟨n, hn⟩ : ∃ n, sent.length = n := ⟨_, rfl⟩
  rw [hn] at h3 h4
  subst h3
  cases ppc <;> simp only at h4 <;>
    simp [Gen.next, prodStep, recvBuffered, rendezvous, makeChan, genInv_iff, wraps_length,
      wraps_succ, h4]
  · exact ⟨by simp [wraps], (wrapInt_zero hb).symm⟩
  · rw [wrapInt_succ]
    simp

theorem reachable_genInv {bits : Nat} (hb : 0 < bits) {g : Gen} (h : Gen.Reachable bits g) :
    GenInv bits g := by
  induction h with
  | start => exact genInv_start bits
  | step _ ht ih => exact genInv_step hb ih _ ht

end ChanGo

namespace ChanGo

theorem gen_reachable_of_steps {bits : Nat} {g h : Gen} (hg : Gen.Reachable bits g)
    (hs : Gen.Steps bits g h) : Gen.Reachable bits h := by
  induction hs with
  | refl => exact hg
  | tail _ hstep ih => exact Gen.Reachable.step ih hstep

theorem gen_reachable_at {bits : Nat} (hb : 0 < bits) :
    ∀ k, Gen.Reachable bits (genAt bits k) := by
  intro k
  induction k with
  | zero =>
    refine Gen.Reachable.step Gen.Reachable.start ?_
    simp [Gen.next, generate, goroutine, prodStep, recvBuffered, rendezvous, makeChan, genAt,
      wraps, wrapInt_zero hb]
  | succ k ih =>
    have h1 : Gen.Reachable bits ⟨makeChan, ⟨.incr, wrapInt bits (k : Int)⟩,
        wraps bits (k + 1), wraps bits (k + 1)⟩ :=
      Gen.Reachable.step ih (by
        simp [Gen.next, prodStep, recvBuffered, rendezvous, makeChan, genAt, wraps_succ])
    refine Gen.Reachable.step h1 ?_
    simp [Gen.next, prodStep, recvBuffered, rendezvous, makeChan, genAt, wrapInt_succ]

theorem wraps_getElem? {bits n j : Nat} (h : j < n) :
    (wraps bits n)[j]? = some (wrapInt bits (j : Int)) := by
  rw [wraps, List.getElem?_map, List.getElem?_range h]
  rfl

theorem upTo_getElem? {n j : Nat} (h : j < n) : (upTo n)[j]? = some (j : Int) := by
  rw [upTo, List.getElem?_map, List.getElem?_range h]
  rfl

theorem wraps_take {bits n k : Nat} (h : k ≤ n) : (wraps bits n).take k = wraps bits k := by
  unfold wraps
  rw [← List.map_take, List.take_range, Nat.min_eq_left h]

theorem wraps_eq_upTo {bits k : Nat} (hb : 0 < bits) (hk : k ≤ 2 ^ (bits - 1)) :
    wraps bits k = upTo k := by
  unfold wraps upTo
  apply List.map_congr_left
  intro j hj
  have hj := List.mem_range.mp hj
  have hlt : (j : Int) < 2 ^ (bits - 1) := by
    have : j < 2 ^ (bits - 1) := by omega
    exact_mod_cast this
  have hp : (0 : Int) < 2 ^ (bits - 1) := by positivity
  exact wrapInt_eq_self hb (by omega) hlt

/-- Once the counter has passed the greatest `int`, the values received are not
`0`, `1`, `2`, ... any more. -/
theorem wraps_ne_upTo {bits : Nat} (hb : 0 < bits) :
    wraps bits (2 ^ (bits - 1) + 1) ≠ upTo (2 ^ (bits - 1) + 1) := by
  intro h
  have h1 := @wraps_getElem? bits _ _ (Nat.lt_succ_self (2 ^ (bits - 1)))
  have h2 := upTo_getElem? (Nat.lt_succ_self (2 ^ (bits - 1)))
  rw [h, h2] at h1
  have h3 := Option.some.inj h1
  push_cast at h3
  rw [wrapInt_half hb] at h3
  have hp : (0 : Int) < 2 ^ (bits - 1) := by positivity
  omega

/-- From every state of the invariant an execution hands the next value of the counter to
the receiver. -/
theorem gen_receive_next {bits : Nat} (hb : 0 < bits) {g : Gen} (hinv : GenInv bits g) :
    ∃ h, Gen.Steps bits g h ∧ h.recvd = g.recvd ++ [wrapInt bits (g.recvd.length : Int)] := by
  obtain ⟨ch, ⟨ppc, pi⟩, sent, recvd⟩ := g
  obtain ⟨h1, h2, h3, h4⟩ := hinv
  simp only at h1 h2 h3 h4
  subst h1
  cases ppc <;> simp only at h4
  · subst h4
    refine ⟨⟨makeChan, ⟨.incr, 0⟩, sent ++ [0], [] ++ [0]⟩, ?_, by simp [wrapInt_zero hb]⟩
    refine Relation.ReflTransGen.head (b := ⟨makeChan, ⟨.send, 0⟩, sent, []⟩) ?_ ?_
    · simp [Gen.next, prodStep, recvBuffered, rendezvous, makeChan]
    · refine Relation.ReflTransGen.single ?_
      simp [Gen.next, prodStep, recvBuffered, rendezvous, makeChan]
  · subst h4
    refine ⟨⟨makeChan, ⟨.incr, wrapInt bits (recvd.length : Int)⟩,
      sent ++ [wrapInt bits (recvd.length : Int)],
      recvd ++ [wrapInt bits (recvd.length : Int)]⟩, ?_, rfl⟩
    refine Relation.ReflTransGen.single ?_
    simp [Gen.next, prodStep, recvBuffered, rendezvous, makeChan]
  · obtain ⟨h4, rfl⟩ := h4
    have hw : wrapInt bits (wrapInt bits ((recvd.length : Int) - 1) + 1)
        = wrapInt bits (recvd.length : Int) := by
      rw [wrapInt_succ]
      simp
    refine ⟨⟨makeChan, ⟨.incr, wrapInt bits (recvd.length : Int)⟩,
      sent ++ [wrapInt bits (recvd.length : Int)],
      recvd ++ [wrapInt bits (recvd.length : Int)]⟩, ?_, rfl⟩
    refine Relation.ReflTransGen.head
      (b := ⟨makeChan, ⟨.send, wrapInt bits (recvd.length : Int)⟩, sent, recvd⟩) ?_ ?_
    · simp [Gen.next, prodStep, recvBuffered, rendezvous, makeChan, hw]
    · refine Relation.ReflTransGen.single ?_
      simp [Gen.next, prodStep, recvBuffered, rendezvous, makeChan]

/-- A step of `generate` either leaves the values received as they are or adds the next
value of the counter; and some step is always enabled. -/
theorem gen_next_recvd {bits : Nat} {g : Gen} (hinv : GenInv bits g) :
    g.next bits ≠ [] ∧
    ∀ h ∈ g.next bits,
      h.recvd = g.recvd ∨ h.recvd = g.recvd ++ [wrapInt bits (g.recvd.length : Int)] := by
  obtain ⟨ch, ⟨ppc, pi⟩, sent, recvd⟩ := g
  obtain ⟨h1, h2, h3, h4⟩ := hinv
  simp only at h1 h2 h3 h4
  subst h1
  cases ppc <;> simp only at h4 <;>
    simp [Gen.next, prodStep, recvBuffered, rendezvous, makeChan, h4]

end ChanGo

namespace ChanGo

/-! ### The claims about `generate` -/

theorem genAt_recvd (bits k : Nat) : (genAt bits k).recvd = wraps bits k := rfl

theorem genAt_recvd_length (bits k : Nat) : (genAt bits k).recvd.length = k :=
  wraps_length bits k

/-- One value past the greatest `int`: some execution receives `2 ^ (bits - 1) + 1` values,
and in every execution that does, these are not `0`, `1`, ..., `2 ^ (bits - 1)`. -/
theorem first_values_past_max {bits : Nat} (hb : 0 < bits) :
    (∃ g, Gen.Reachable bits g ∧ 2 ^ (bits - 1) + 1 ≤ g.recvd.length) ∧
    ∀ g, Gen.Reachable bits g → 2 ^ (bits - 1) + 1 ≤ g.recvd.length →
      g.recvd.take (2 ^ (bits - 1) + 1) ≠ upTo (2 ^ (bits - 1) + 1) := by
  constructor
  · exact ⟨genAt bits (2 ^ (bits - 1) + 1), gen_reachable_at hb _,
      le_of_eq (genAt_recvd_length bits (2 ^ (bits - 1) + 1)).symm⟩
  · intro g hg hlen
    have hinv := reachable_genInv hb hg
    rw [hinv.vals, wraps_take hlen]
    exact wraps_ne_upTo hb

/-- After `2 ^ (bits - 1)` values: a receiver can have received that many, and no execution
whatever goes on to receive `2 ^ (bits - 1)` as the next one. -/
theorem next_value_past_max {bits : Nat} (hb : 0 < bits) :
    Gen.Reachable bits (genAt bits (2 ^ (bits - 1))) ∧
    (genAt bits (2 ^ (bits - 1))).recvd.length = 2 ^ (bits - 1) ∧
    ¬ ∃ h, Gen.Reachable bits h ∧
      h.recvd = (genAt bits (2 ^ (bits - 1))).recvd ++ [((2 ^ (bits - 1) : Nat) : Int)] := by
  refine ⟨gen_reachable_at hb _, genAt_recvd_length bits _, ?_⟩
  rintro ⟨h, hh, hrecvd⟩
  have hinv := reachable_genInv hb hh
  rw [genAt_recvd] at hrecvd
  have hlen : h.recvd.length = 2 ^ (bits - 1) + 1 := by
    rw [hrecvd, List.length_append, wraps_length, List.length_singleton]
  have hv := hinv.vals
  rw [hlen] at hv
  apply wraps_ne_upTo hb
  rw [← hv, hrecvd, upTo_succ, wraps_eq_upTo hb (le_refl _)]

/-- C2, as the claim states it, fails on both widths of `int`. With 32 bits some execution
receives `2 ^ 31 + 1` values, and in every execution that does, the first `2 ^ 31 + 1` values
received are not `0`, `1`, ..., `2 ^ 31`, the counter having wrapped around to `-2 ^ 31`;
with 64 bits the same holds of `2 ^ 63 + 1` values. -/
theorem generate_first_values_overflow :
    ((∃ g, Gen.Reachable 32 g ∧ 2 ^ 31 + 1 ≤ g.recvd.length) ∧
      ∀ g, Gen.Reachable 32 g → 2 ^ 31 + 1 ≤ g.recvd.length →
        g.recvd.take (2 ^ 31 + 1) ≠ upTo (2 ^ 31 + 1)) ∧
    ((∃ g, Gen.Reachable 64 g ∧ 2 ^ 63 + 1 ≤ g.recvd.length) ∧
      ∀ g, Gen.Reachable 64 g → 2 ^ 63 + 1 ≤ g.recvd.length →
        g.recvd.take (2 ^ 63 + 1) ≠ upTo (2 ^ 63 + 1)) := by
  have h32 := @first_values_past_max 32 (by decide)
  have h64 := @first_values_past_max 64 (by decide)
  simp only [Nat.reduceSub] at h32 h64
  exact ⟨h32, h64⟩

/-- C2, amended: for every `k` up to `2 ^ (bits - 1)`, some execution of `generate` with a
receiver receives `k` values, and in every reachable state in which at least `k` values have
been received, the first `k` of them are `0`, `1`, ..., `k - 1`. -/
theorem generate_first_values (bits : Nat) (hb : 0 < bits) (k : Nat)
    (hk : k ≤ 2 ^ (bits - 1)) :
    (∃ g, Gen.Reachable bits g ∧ g.recvd.length = k) ∧
    ∀ g, Gen.Reachable bits g → k ≤ g.recvd.length → g.recvd.take k = upTo k := by
  constructor
  · exact ⟨genAt bits k, gen_reachable_at hb k, genAt_recvd_length bits k⟩
  · intro g hg hlen
    have hinv := reachable_genInv hb hg
    rw [hinv.vals, wraps_take hlen, wraps_eq_upTo hb hk]

theorem generate_first_values_witness :
    0 < 64 ∧ 3 ≤ 2 ^ (64 - 1) ∧ Gen.Reachable 64 (genAt 64 5) ∧ 3 ≤ (genAt 64 5).recvd.length ∧
      (genAt 64 5).recvd.take 3 = upTo 3 :=
  ⟨by decide, by decide, gen_reachable_at (by decide) 5, by decide,
    (generate_first_values 64 (by decide) 3 (by decide)).2 (genAt 64 5)
      (gen_reachable_at (by decide) 5) (by decide)⟩

/-- C4, as the claim states it, fails on both widths of `int`. With 64 bits a receiver can
have received `2 ^ 63` values, and no execution whatever goes on to receive `2 ^ 63` as the
next one (the value it receives is `-2 ^ 63`); with 32 bits the same holds of `2 ^ 31`. -/
theorem generate_next_value_overflow :
    (Gen.Reachable 64 (genAt 64 (2 ^ 63)) ∧ (genAt 64 (2 ^ 63)).recvd.length = 2 ^ 63 ∧
      ¬ ∃ h, Gen.Reachable 64 h ∧
        h.recvd = (genAt 64 (2 ^ 63)).recvd ++ [((2 ^ 63 : Nat) : Int)]) ∧
    (Gen.Reachable 32 (genAt 32 (2 ^ 31)) ∧ (genAt 32 (2 ^ 31)).recvd.length = 2 ^ 31 ∧
      ¬ ∃ h, Gen.Reachable 32 h ∧
        h.recvd = (genAt 32 (2 ^ 31)).recvd ++ [((2 ^ 31 : Nat) : Int)]) := by
  have h64 := @next_value_past_max 64 (by decide)
  have h32 := @next_value_past_max 32 (by decide)
  simp only [Nat.reduceSub] at h64 h32
  exact ⟨h64, h32⟩

/-- C4, amended: in every reachable state of `generate` with a receiver the goroutine has
neither returned nor panicked and the channel is open; a step is enabled; some execution
from the state hands the receiver one more value; any value received next is the counter
wrapped to the width of `int`, which is the number `n` of values received before as long as
`n < 2 ^ (bits - 1)`. -/
theorem generate_never_stops (bits : Nat) (hb : 0 < bits) (g : Gen)
    (hg : Gen.Reachable bits g) :
    g.prod.pc ≠ .done ∧ g.prod.pc ≠ .panicked ∧ g.ch.closed = false ∧
    g.next bits ≠ [] ∧
    (∃ h, Gen.Steps bits g h ∧ h.recvd = g.recvd ++ [wrapInt bits (g.recvd.length : Int)]) ∧
    (∀ h ∈ g.next bits,
      h.recvd = g.recvd ∨ h.recvd = g.recvd ++ [wrapInt bits (g.recvd.length : Int)]) ∧
    ((g.recvd.length : Int) < 2 ^ (bits - 1) →
      wrapInt bits (g.recvd.length : Int) = (g.recvd.length : Int)) := by
  have hinv := reachable_genInv hb hg
  have hp := hinv.prod
  refine ⟨?_, ?_, by rw [hinv.chan]; rfl, (gen_next_recvd hinv).1, gen_receive_next hb hinv,
    (gen_next_recvd hinv).2, ?_⟩
  · intro h
    rw [h] at hp
    exact hp
  · intro h
    rw [h] at hp
    exact hp
  · intro hlt
    have hpos : (0 : Int) < 2 ^ (bits - 1) := by positivity
    exact wrapInt_eq_self hb (by omega) hlt

theorem generate_never_stops_witness :
    0 < 64 ∧ Gen.Reachable 64 (genAt 64 100) ∧ (genAt 64 100).recvd.length = 100 ∧
      ∃ h, Gen.Steps 64 (genAt 64 100) h ∧
        h.recvd = (genAt 64 100).recvd ++ [wrapInt 64 ((genAt 64 100).recvd.length : Int)] :=
  ⟨by decide, gen_reachable_at (by decide) 100, genAt_recvd_length 64 100,
    (generate_never_stops 64 (by decide) (genAt 64 100)
      (gen_reachable_at (by decide) 100)).2.2.2.2.1⟩

end ChanGo

/-! ## Theorems about types.go -/

namespace TypesGo

theorem zeroValue_succ (k : Nat) (n : TypeName) :
    zeroValue decls (k + 1) n = zeroValue decls 1 n := by
  cases n <;> rfl

theorem sizeOf_byValue (k : Nat) : sizeOf declsByValue k .S1 = none := by
  induction k using Nat.strong_induction_on with
  | _ k ih =>
    match k with
    | 0 => rfl
    | 1 => rfl
    | k + 2 =>
      have := ih k (by omega)
      simp [sizeOf, declsByValue, sizeOfTy, collect, this]

/-- C5: `main` of `types.go` succeeds and writes four lines, in this order: the greeting
`Shall we?`, the rendering of the zero value of `T`, the rendering of the zero value of `S1`
and the rendering of the zero value of `S2`. The output is a constant: `main` has no input,
so it is the same on every run. -/
theorem types_main_output :
    main = some "Shall we?\n<nil>\n\x7b<nil>\x7d\n\x7b<nil>\x7d\n" ∧
    main.map lineCount = some 4 ∧
    ∃ t s1 s2, zeroValue decls fuel .T = some t ∧ zeroValue decls fuel .S1 = some s1 ∧
      zeroValue decls fuel .S2 = some s2 ∧
      main = some (unlines ["Shall we?", Fmt.render t, Fmt.render s1, Fmt.render s2]) :=
  ⟨by decide, by decide, .nil, .struct [.nil], .struct [.nil], rfl, rfl, rfl, by decide⟩

/-- C6, as the claim states it, fails: the output of `main` is not the greeting followed by
three times the rendering of a nil pointer, and the line printed for `s1` is not the
rendering of a nil pointer. -/
theorem types_struct_lines_not_nil :
    main ≠ some (unlines ["Shall we?", Fmt.render .nil, Fmt.render .nil, Fmt.render .nil]) ∧
    ∃ s1, zeroValue decls fuel .S1 = some s1 ∧ Fmt.render s1 ≠ Fmt.render .nil :=
  ⟨by decide, .struct [.nil], rfl, by decide⟩

/-- C6, amended: after the greeting, the line printed for `t` is the rendering `<nil>` of a
nil pointer, and the lines printed for `s1` and `s2` are each that rendering between
braces, the form of a struct whose single field is a nil pointer. -/
theorem types_nil_renderings :
    Fmt.render .nil = "<nil>" ∧
    main = some (unlines ["Shall we?", Fmt.render .nil,
      "\x7b" ++ Fmt.render .nil ++ "\x7d", "\x7b" ++ Fmt.render .nil ++ "\x7d"]) ∧
    (zeroValue decls fuel .T).map Fmt.render = some (Fmt.render .nil) ∧
    (zeroValue decls fuel .S1).map Fmt.render = some ("\x7b" ++ Fmt.render .nil ++ "\x7d") ∧
    (zeroValue decls fuel .S2).map Fmt.render = some ("\x7b" ++ Fmt.render .nil ++ "\x7d") :=
  ⟨by decide, by decide, by decide, by decide, by decide⟩

/-- C7: every one of the five declared types has a size and a zero value, found by looking
at its own declaration only (fuel one), a pointer taking one word and being nil whatever it
points to; the zero value of `T`, `T1` and `T2` is nil; `S1` and `S2` have the single field
`p_s2` and `p_s1`, and their zero value is the struct whose field is nil; more fuel changes
nothing; no zero value holds a referent, so no cyclic value is built. The same structs with
their fields held by value have no size. -/
theorem types_declarations_legal :
    (∀ n : TypeName, (sizeOf decls 1 n).isSome = true ∧ (zeroValue decls 1 n).isSome = true) ∧
    zeroValue decls 1 .T = some .nil ∧
    zeroValue decls 1 .T1 = some .nil ∧
    zeroValue decls 1 .T2 = some .nil ∧
    decls .S1 = .struct [("p_s2", .ptr .S2)] ∧
    decls .S2 = .struct [("p_s1", .ptr .S1)] ∧
    zeroValue decls 1 .S1 = some (.struct [.nil]) ∧
    zeroValue decls 1 .S2 = some (.struct [.nil]) ∧
    (∀ (k : Nat) (n : TypeName), zeroValue decls (k + 1) n = zeroValue decls 1 n) ∧
    (∀ n : TypeName, (zeroValue decls fuel n).map hasReferent = some false) ∧
    (∀ k : Nat, sizeOf declsByValue k .S1 = none) := by
  refine ⟨?_, rfl, rfl, rfl, rfl, rfl, rfl, rfl, zeroValue_succ, ?_, sizeOf_byValue⟩
  · intro n
    cases n <;> exact ⟨rfl, rfl⟩
  · intro n
    cases n <;> rfl

end TypesGo
